import Mathlib

/- Verification development for the RePyability reliability-engineering library
(repyability.py).  The library's numeric routines are embedded shallowly:
times and probabilities are modelled as rationals (ℚ), event counts as
integers (ℤ), and Python runtime failures as explicit error values.  Each
definition carries a comment pointing to the source lines it translates. -/

set_option maxHeartbeats 1000000

/-- Python runtime errors that the library can actually raise.
`typeError` stands for `TypeError` (e.g. subscripting `None`, or numpy's
"expected non-empty vector" raised by `np.polyfit` on empty data);
`unboundLocalError` stands for `UnboundLocalError` (reading a local variable
that was never assigned). -/
inductive PyError
  | typeError
  | unboundLocalError
deriving DecidableEq

/-- Result record of `get_r_c_d` (src/repyability.py line 92: `return x, r, c, d`):
unique times `x`, risk set `r`, censored counts `c`, failure counts `d`. -/
structure RCD where
  x : List ℚ
  r : List ℤ
  c : List ℤ
  d : List ℤ
deriving DecidableEq

/-- Insert a value into a strictly increasing list, dropping it when already
present.  Building block for `uniqueSorted`. -/
def insOne (a : ℚ) : List ℚ → List ℚ
  | [] => [a]
  | b :: l => if a < b then a :: b :: l else if a = b then b :: l else b :: insOne a l

/-- Sorted distinct values of a list: models `np.unique`, which returns the
sorted unique values of its argument. -/
def uniqueSorted (l : List ℚ) : List ℚ := l.foldr insOne []

/-- Stable insertion of a (time, value) pair into a list sorted by time.
Building block for `sortPairs`. -/
def insPair (p : ℚ × ℤ) : List (ℚ × ℤ) → List (ℚ × ℤ)
  | [] => [p]
  | q :: l => if p.1 ≤ q.1 then p :: q :: l else q :: insPair p l

/-- Sort (time, value) pairs by time: models `idx = np.argsort(x)` followed by
reindexing the parallel arrays with `idx`.  (`np.argsort`'s order among tied
times is unspecified; no claim below depends on the order of ties.) -/
def sortPairs (l : List (ℚ × ℤ)) : List (ℚ × ℤ) := l.foldr insPair []

/-- Per-unique-time accumulation: for each time `v` in `xs`, the sum of the
weights of the pairs whose time equals `v`.  Models the loop
`d[x == t[i]] += w[i]` of `get_r_c_d` (src lines 71-73 and 85-87). -/
def buckets (pairs : List (ℚ × ℤ)) (xs : List ℚ) : List ℤ :=
  xs.map (fun v => ((pairs.filter (fun q => decide (q.1 = v))).map Prod.snd).sum)

/-- Risk-set recurrence (src lines 89-91):
`r = np.repeat(N, len(d)); r[1:] = r[1:] - cumsum(d)[:-1] - cumsum(c)[:-1]`,
i.e. `r[j] = N - (d[0]+...+d[j-1]) - (c[0]+...+c[j-1])`. -/
def riskSet (N : ℤ) (d c : List ℤ) : List ℤ :=
  (List.range d.length).map (fun j => N - (d.take j).sum - (c.take j).sum)

/-- Embedding of `get_r_c_d` (src lines 35-92).  The four branches follow the
source: no censoring and no counts collapses duplicate times via
`np.unique(x, return_counts=True)` (weight-1 buckets); counts without
censoring sorts times and takes `d = counts` (no deduplication in the
source); the censored branches accumulate `(1-censored[i])` (times
`counts[i]` when given) into `d` and `censored[i]` (times `counts[i]`) into
`c` at each unique time.  `N` is `len(x)` or `sum(counts)` (src lines 45-48).
The source performs no input validation whatsoever. -/
def get_r_c_d (x : List ℚ) (censored : Option (List ℤ)) (counts : Option (List ℤ)) : RCD :=
  let N : ℤ := match counts with
    | none => (x.length : ℤ)
    | some cnt => cnt.sum
  match censored, counts with
  | none, none =>
    let xs := uniqueSorted x
    let d := buckets (x.map (fun a => (a, (1 : ℤ)))) xs
    let c := xs.map (fun _ => (0 : ℤ))
    ⟨xs, riskSet N d c, c, d⟩
  | none, some cnt =>
    let pairs := sortPairs (x.zip cnt)
    let d := pairs.map Prod.snd
    let c := pairs.map (fun _ => (0 : ℤ))
    ⟨pairs.map Prod.fst, riskSet N d c, c, d⟩
  | some cens, none =>
    let xs := uniqueSorted x
    let d := buckets (x.zip (cens.map (fun z => 1 - z))) xs
    let c := buckets (x.zip cens) xs
    ⟨xs, riskSet N d c, c, d⟩
  | some cens, some cnt =>
    let xs := uniqueSorted x
    let d := buckets (x.zip ((cens.zip cnt).map (fun q => (1 - q.1) * q.2))) xs
    let c := buckets (x.zip ((cens.zip cnt).map (fun q => q.1 * q.2))) xs
    ⟨xs, riskSet N d c, c, d⟩

/-- Cumulative products of the prefixes of a list: `np.cumprod`. -/
def cumprod (l : List ℚ) : List ℚ := (List.range l.length).map (fun j => (l.take (j + 1)).prod)

/-- Reliability sequence of the Kaplan-Meier estimator (src lines 142-161):
build the risk-set table with `get_r_c_d`, then
`R = np.cumprod(np.divide((r - d), r))`.  The source additionally derives
`H = -log R` and increments `h` from `R`; only the `R` sequence is embedded. -/
def kaplan_meier_R (x : List ℚ) (censored : Option (List ℤ)) (counts : Option (List ℤ)) : List ℚ :=
  let T := get_r_c_d x censored counts
  cumprod (List.zipWith (fun rj dj => ((rj - dj : ℤ) : ℚ) / (rj : ℚ)) T.r T.d)

/-- Hazard sequence of the Nelson-Aalen estimator (src line 123): `h = d / r`
elementwise over the aligned risk-set arrays. -/
def nelson_aalen_h (r d : List ℤ) : List ℚ :=
  (r.zip d).map (fun p => (p.2 : ℚ) / (p.1 : ℚ))

/-- Hazard sequence of the Fleming-Harrington estimator (src line 201):
`h = [sum([1/(r[i]-j) for j in range(d[i])]) for i in range(len(x))]`. -/
def fleming_harrington_h (r d : List ℤ) : List ℚ :=
  (r.zip d).map (fun p => ((List.range p.2.toNat).map (fun j => 1 / ((p.1 : ℚ) - (j : ℚ)))).sum)

/-- Grid of the Turnbull solver (src lines 226-227):
`x = np.unique(np.append(lower, upper))`. -/
def tb_xs (lower upper : List ℚ) : List ℚ := uniqueSorted (lower ++ upper)

/-- Initial mass of the Turnbull solver (src line 229): `p = np.repeat(1/m, m)`
assigns the same value `1/m` to every grid point, so it is embedded as that
single rational. -/
def tb_p (lower upper : List ℚ) : ℚ := 1 / ((tb_xs lower upper).length : ℚ)

/-- Interval-membership indicator of the Turnbull solver (src line 237):
`alphas[i, j] = int((lower[i] <= x[j]) and (upper[i] >= x[j]))`. -/
def tb_alpha (lower upper : List ℚ) (i j : ℕ) : ℚ :=
  if lower.getD i 0 ≤ (tb_xs lower upper).getD j 0 ∧
      (tb_xs lower upper).getD j 0 ≤ upper.getD i 0 then 1 else 0

/-- Denominator of unit `i`'s contribution (src lines 243-245):
`denominator = sum(alphas[i, k] * p[k] for k in range(m))`. -/
def tb_denom (lower upper : List ℚ) (i : ℕ) : ℚ :=
  ((List.range (tb_xs lower upper).length).map
    (fun k => tb_alpha lower upper i k * tb_p lower upper)).sum

/-- Mass accumulated at grid point `j` (src lines 239-247):
`d[j] = sum(alphas[i, j] * p[j] / denominator_i for i in range(n))`. -/
def tb_d (lower upper : List ℚ) (j : ℕ) : ℚ :=
  ((List.range lower.length).map
    (fun i => tb_alpha lower upper i j * tb_p lower upper / tb_denom lower upper i)).sum

/-- Mass vector `d` returned by `turnbull` (src lines 219-249).  The source
performs this accumulation exactly once and returns, with no normalization
step and no iteration. -/
def turnbull_d (lower upper : List ℚ) : List ℚ :=
  (List.range (tb_xs lower upper).length).map (tb_d lower upper)

/-- Plotting-position constants chosen by the `if/elif` chain of
`plotting_positions` (src lines 349-362).  The chain has no `else`: an
unrecognized name leaves `A, B` unassigned, which the caller then reads,
modelled by `none`.  (Python's float literals are embedded as the exact
decimals they denote.) -/
def formulaAB (formula : String) : Option (ℚ × ℚ) :=
  if formula = "Blom" then some (0.375, 0.25)
  else if formula = "Median" then some (0.3, 0.4)
  else if formula = "Modal" then some (1.0, -1.0)
  else if formula = "Midpoint" then some (0.5, 0.0)
  else if formula = "Mean" then some (0.0, 1.0)
  else if formula = "Weibull" then some (0.0, 1.0)
  else if formula = "Benard" then some (0.3, 0.2)
  else if formula = "Beard" then some (0.31, 0.38)
  else if formula = "Hazen" then some (0.5, 0.0)
  else if formula = "Filiben" then some (0.3175, 1.635)
  else if formula = "Gringorten" then some (0.44, 0.12)
  else if formula = "None" then some (0.0, 0.0)
  else if formula = "Tukey" then some (1/3, 1/3)
  else if formula = "DPW" then some (1.0, 0.0)
  else none

/-- Mean-order-number loop of `rank_adjust` (src lines 392-403): walk the
censoring codes of the time-sorted entries; an uncensored entry (code 0) gets
rank `PMON + (n + 1 - PMON) / (n - i + 2)` (the source's loop index `i` is
0-based) and updates `PMON`; a censored entry gets `np.nan`, modelled as
`none`. -/
def ranksAux (n : ℕ) : List ℤ → ℕ → ℚ → List (Option ℚ)
  | [], _, _ => []
  | z :: rest, i, pmon =>
    if z = 0 then
      some (pmon + ((n : ℚ) + 1 - pmon) / ((n : ℚ) - (i : ℚ) + 2)) ::
        ranksAux n rest (i + 1) (pmon + ((n : ℚ) + 1 - pmon) / ((n : ℚ) - (i : ℚ) + 2))
    else none :: ranksAux n rest (i + 1) pmon

/-- Adjusted ranks computed by `rank_adjust` once past the `None` subscript
(src lines 378-405): sort entries by time, carrying the censoring codes, then
run the mean-order-number loop. -/
def rank_adjust_ranks (t : List ℚ) (cens : List ℤ) : List (Option ℚ) :=
  let pairs := sortPairs (t.zip cens)
  ranksAux pairs.length (pairs.map Prod.snd) 0 0

/-- Embedding of `rank_adjust` (src lines 367-405).  With `censored = None`
the reindexing `censored = censored[idx]` at line 380 subscripts `None` and
raises `TypeError` before the `if censored is None` check at line 387 ever
runs; with an explicit censoring array the adjusted ranks are returned. -/
def rank_adjust (t : List ℚ) (censored : Option (List ℤ)) : Except PyError (List (Option ℚ)) :=
  match censored with
  | none => .error .typeError
  | some cens => .ok (rank_adjust_ranks t cens)

/-- Embedding of `plotting_positions` (src lines 335-366): ranks are the
adjusted ranks when a censoring array is given, else the plain ranks
`1..n`; then `pp = (ranks - A) / (len(ranks) + B)` with `(A, B)` from the
formula chain.  An unrecognized formula name leaves `A, B` unassigned and
line 365 raises `UnboundLocalError`.  `np.nan` ranks of censored entries
propagate as `none`. -/
def plotting_positions (t : List ℚ) (censored : Option (List ℤ)) (formula : String) :
    Except PyError (List (Option ℚ)) :=
  let ranks : List (Option ℚ) :=
    match censored with
    | some cens => rank_adjust_ranks t cens
    | none => (List.range t.length).map (fun (i : ℕ) => some ((i : ℚ) + 1))
  match formulaAB formula with
  | none => .error .unboundLocalError
  | some AB => .ok (ranks.map (Option.map (fun v => (v - AB.1) / ((ranks.length : ℚ) + AB.2))))

/-- Observable outcome of a rank-regression fitter call.  The numeric least
squares fit itself (`np.polyfit` / `scipy.optimize.minimize`) is abstracted:
`fitted k` records that the fit step ran over `k` uncensored observations,
`retNone` is Python's plain `return None`, `raisedException` is an explicit
`raise Exception(...)`, and `err e` is an uncaught runtime error (`np.polyfit`
raises `TypeError` on an empty vector; an unknown plotting formula raises
`UnboundLocalError` inside `plotting_positions`). -/
inductive LsqOutcome
  | retNone
  | raisedException
  | err (e : PyError)
  | fitted (nUncens : ℕ)
deriving DecidableEq

/-- Control-flow embedding of `weibull_lsq` (src lines 406-450): empty input
returns `None` (line 411); a missing censoring array defaults to all
uncensored (line 414); plotting positions are computed (line 421, raising on
an unknown formula); then, in the non-LFP path, `rr = 'y'` or `'x'` fits a
line through the uncensored points (`np.polyfit` raises `TypeError` when no
uncensored points remain), while any other `rr` value hits the bare
`return None` at line 437.  In the LFP path a bounded minimization always
runs, whatever `rr` is. -/
def weibull_lsq (t : List ℚ) (censored : Option (List ℤ)) (plotting : String)
    (lfp : Bool) (rr : String) : LsqOutcome :=
  if t.length = 0 then .retNone
  else
    let cens : List ℤ := match censored with
      | none => List.replicate t.length 0
      | some cs => cs
    match formulaAB plotting with
    | none => .err .unboundLocalError
    | some _ =>
      let nUncens := cens.countP (fun z => decide (z = 0))
      if lfp then .fitted nUncens
      else if rr = "y" then (if nUncens = 0 then .err .typeError else .fitted nUncens)
      else if rr = "x" then (if nUncens = 0 then .err .typeError else .fitted nUncens)
      else .retNone

/-- Control-flow embedding of `gumbel_lsq` (src lines 451-496): identical
shape to `weibull_lsq` except that a direction code other than `'x'`/`'y'`
reaches `raise Exception('rr must either be x or y')` at line 483. -/
def gumbel_lsq (t : List ℚ) (censored : Option (List ℤ)) (plotting : String)
    (lfp : Bool) (rr : String) : LsqOutcome :=
  if t.length = 0 then .retNone
  else
    let cens : List ℤ := match censored with
      | none => List.replicate t.length 0
      | some cs => cs
    match formulaAB plotting with
    | none => .err .unboundLocalError
    | some _ =>
      let nUncens := cens.countP (fun z => decide (z = 0))
      if lfp then .fitted nUncens
      else if rr = "y" then (if nUncens = 0 then .err .typeError else .fitted nUncens)
      else if rr = "x" then (if nUncens = 0 then .err .typeError else .fitted nUncens)
      else .raisedException

/-- Control-flow embedding of `normal_lsq` (src lines 497-542): identical
shape to `gumbel_lsq`, raising at line 529 for a direction code other than
`'x'`/`'y'`. -/
def normal_lsq (t : List ℚ) (censored : Option (List ℤ)) (plotting : String)
    (lfp : Bool) (rr : String) : LsqOutcome :=
  if t.length = 0 then .retNone
  else
    let cens : List ℤ := match censored with
      | none => List.replicate t.length 0
      | some cs => cs
    match formulaAB plotting with
    | none => .err .unboundLocalError
    | some _ =>
      let nUncens := cens.countP (fun z => decide (z = 0))
      if lfp then .fitted nUncens
      else if rr = "y" then (if nUncens = 0 then .err .typeError else .fitted nUncens)
      else if rr = "x" then (if nUncens = 0 then .err .typeError else .fitted nUncens)
      else .raisedException

lemma mem_insOne {x a : ℚ} {l : List ℚ} : x ∈ insOne a l ↔ x = a ∨ x ∈ l := by
  induction l with
  | nil => simp [insOne]
  | cons b l ih =>
    by_cases h1 : a < b
    · simp [insOne, h1]
    · by_cases h2 : a = b
      · subst h2
        simp [insOne, h1]
      · simp only [insOne, if_neg h1, if_neg h2, List.mem_cons, ih]
        tauto

lemma chain_lt_insOne {a : ℚ} {l : List ℚ} (h : l.Chain' (· < ·)) :
    (insOne a l).Chain' (· < ·) := by
  induction l with
  | nil => simp [insOne]
  | cons b l ih =>
    rw [List.chain'_cons'] at h
    by_cases h1 : a < b
    · simp only [insOne, if_pos h1]
      rw [List.chain'_cons]
      exact ⟨h1, List.chain'_cons'.2 h⟩
    · by_cases h2 : a = b
      · simpa [insOne, h1, h2] using List.chain'_cons'.2 h
      · have hba : b < a := lt_of_le_of_ne (le_of_not_lt h1) (Ne.symm h2)
        simp only [insOne, if_neg h1, if_neg h2]
        rw [List.chain'_cons']
        refine ⟨?_, ih h.2⟩
        intro y hy
        cases l with
        | nil => simp [insOne] at hy; subst hy; exact hba
        | cons c l' =>
          simp only [insOne] at hy
          by_cases h3 : a < c
          · simp only [if_pos h3, List.head?_cons, Option.mem_def, Option.some_inj] at hy
            subst hy; exact hba
          · by_cases h4 : a = c
            · simp only [if_neg h3, if_pos h4, List.head?_cons, Option.mem_def,
                Option.some_inj] at hy
              subst hy
              exact h.1 c rfl
            · simp only [if_neg h3, if_neg h4, List.head?_cons, Option.mem_def,
                Option.some_inj] at hy
              subst hy
              exact h.1 c rfl

lemma uniqueSorted_chain (l : List ℚ) : (uniqueSorted l).Chain' (· < ·) := by
  induction l with
  | nil => simp [uniqueSorted]
  | cons a l ih => exact chain_lt_insOne ih

lemma mem_uniqueSorted {x : ℚ} {l : List ℚ} : x ∈ uniqueSorted l ↔ x ∈ l := by
  induction l with
  | nil => simp [uniqueSorted]
  | cons a l ih =>
    show x ∈ insOne a (uniqueSorted l) ↔ _
    rw [mem_insOne, ih, List.mem_cons]

lemma uniqueSorted_nodup (l : List ℚ) : (uniqueSorted l).Nodup := by
  have h := uniqueSorted_chain l
  rw [List.chain'_iff_pairwise] at h
  exact h.imp ne_of_lt

lemma insPair_perm (p : ℚ × ℤ) (l : List (ℚ × ℤ)) : (insPair p l).Perm (p :: l) := by
  induction l with
  | nil => simp [insPair]
  | cons q l ih =>
    by_cases h : p.1 ≤ q.1
    · simp [insPair, h]
    · simp only [insPair, if_neg h]
      exact (ih.cons q).trans (List.Perm.swap p q l)

lemma sortPairs_perm (l : List (ℚ × ℤ)) : (sortPairs l).Perm l := by
  induction l with
  | nil => simp [sortPairs]
  | cons p l ih => exact (insPair_perm p (sortPairs l)).trans (ih.cons p)

lemma listSum_map_add {α : Type} (l : List α) (f g : α → ℤ) :
    (l.map (fun a => f a + g a)).sum = (l.map f).sum + (l.map g).sum := by
  induction l with
  | nil => simp
  | cons a l ih => simp [ih]; ring

lemma listSum_map_one {α : Type} (l : List α) : (l.map (fun _ => (1 : ℤ))).sum = l.length := by
  induction l with
  | nil => simp
  | cons a l ih =>
    simp [ih]
    omega

lemma listSum_map_ite {xs : List ℚ} {a : ℚ} (w : ℤ) (hnd : xs.Nodup) (ha : a ∈ xs) :
    (xs.map (fun v => if a = v then w else 0)).sum = w := by
  induction xs with
  | nil => simp at ha
  | cons b xs ih =>
    rw [List.nodup_cons] at hnd
    rcases List.mem_cons.1 ha with hab | hax
    · subst hab
      have hz : (xs.map (fun v => if a = v then w else 0)).sum = 0 := by
        apply List.sum_eq_zero
        intro y hy
        rcases List.mem_map.1 hy with ⟨v, hv, hvy⟩
        have : a ≠ v := fun hav => hnd.1 (hav ▸ hv)
        simp [this] at hvy
        omega
      simp [hz]
    · have hab : a ≠ b := fun h => hnd.1 (h ▸ hax)
      simp [hab, ih hnd.2 hax]

lemma buckets_length (pairs : List (ℚ × ℤ)) (xs : List ℚ) :
    (buckets pairs xs).length = xs.length := by
  simp [buckets]

lemma buckets_nonneg {pairs : List (ℚ × ℤ)} {xs : List ℚ}
    (h : ∀ q ∈ pairs, 0 ≤ q.2) : ∀ b ∈ buckets pairs xs, 0 ≤ b := by
  intro b hb
  rcases List.mem_map.1 hb with ⟨v, _, hvb⟩
  subst hvb
  apply List.sum_nonneg
  intro y hy
  rcases List.mem_map.1 hy with ⟨q, hq, hqy⟩
  exact hqy ▸ h q (List.mem_of_mem_filter hq)

lemma buckets_sum {pairs : List (ℚ × ℤ)} {xs : List ℚ}
    (hnd : xs.Nodup) (hcov : ∀ q ∈ pairs, q.1 ∈ xs) :
    (buckets pairs xs).sum = (pairs.map Prod.snd).sum := by
  induction pairs with
  | nil => simp [buckets]
  | cons q pairs ih =>
    have hstep : buckets (q :: pairs) xs =
        xs.map (fun v => (if q.1 = v then q.2 else 0) +
          ((pairs.filter (fun q' => decide (q'.1 = v))).map Prod.snd).sum) := by
      apply List.map_congr_left
      intro v _
      by_cases h : q.1 = v
      · simp [List.filter_cons, h]
      · simp [List.filter_cons, h]
    rw [hstep, listSum_map_add]
    have h1 : (xs.map (fun v => if q.1 = v then q.2 else 0)).sum = q.2 :=
      listSum_map_ite q.2 hnd (hcov q (List.mem_cons_self q pairs))
    have h2 := ih (fun q' hq' => hcov q' (List.mem_cons_of_mem q hq'))
    rw [h1]
    rw [buckets] at h2
    rw [h2]
    simp

lemma listSum_take_succ (l : List ℤ) (j : ℕ) :
    (l.take (j + 1)).sum = (l.take j).sum + l.getD j 0 := by
  induction l generalizing j with
  | nil => simp
  | cons a l ih =>
    cases j with
    | zero => simp
    | succ j =>
      simp only [List.take_succ_cons, List.sum_cons, List.getD_cons_succ, ih j]
      ring

lemma listSum_take_le (l : List ℤ) (j : ℕ) (h : ∀ a ∈ l, 0 ≤ a) :
    (l.take j).sum ≤ l.sum := by
  conv_rhs => rw [← List.take_append_drop j l]
  rw [List.sum_append]
  have : 0 ≤ (l.drop j).sum := by
    apply List.sum_nonneg
    intro a ha
    exact h a (List.mem_of_mem_drop ha)
  omega

lemma listGetD_nonneg (l : List ℤ) (j : ℕ) (h : ∀ a ∈ l, 0 ≤ a) : 0 ≤ l.getD j 0 := by
  by_cases hj : j < l.length
  · rw [List.getD_eq_get l 0 hj]
    exact h _ (List.get_mem l j hj)
  · rw [List.getD_eq_default l 0 (le_of_not_lt hj)]

lemma riskSet_length (N : ℤ) (d c : List ℤ) : (riskSet N d c).length = d.length := by
  simp [riskSet]

lemma riskSet_getD (N : ℤ) (d c : List ℤ) (j : ℕ) (hj : j < d.length) :
    (riskSet N d c).getD j 0 = N - (d.take j).sum - (c.take j).sum := by
  have hj' : j < (riskSet N d c).length := by rw [riskSet_length]; exact hj
  rw [List.getD_eq_get _ 0 hj']
  simp [riskSet]

lemma rcd_invariants_core (N : ℤ) (d c : List ℤ) (hlen : c.length = d.length)
    (hd : ∀ a ∈ d, 0 ≤ a) (hc : ∀ a ∈ c, 0 ≤ a) (htot : d.sum + c.sum ≤ N) :
    (riskSet N d c).Chain' (fun a b => b ≤ a) ∧
    ∀ j, d.getD j 0 + c.getD j 0 ≤ (riskSet N d c).getD j 0 := by
  constructor
  · rw [List.chain'_iff_get]
    intro i hi
    rw [riskSet_length] at hi
    have hi1 : i < d.length := by omega
    have hi2 : i + 1 ≤ d.length := by omega
    simp only [riskSet, List.get_map, List.get_range]
    have h1 := listSum_take_succ d i
    have h2 := listSum_take_succ c i
    have h3 := listGetD_nonneg d i hd
    have h4 := listGetD_nonneg c i hc
    omega
  · intro j
    by_cases hj : j < d.length
    · rw [riskSet_getD N d c j hj]
      have h1 := listSum_take_succ d j
      have h2 := listSum_take_succ c j
      have h3 := listSum_take_le d (j + 1) hd
      have h4 := listSum_take_le c (j + 1) hc
      omega
    · have hj' : d.length ≤ j := le_of_not_lt hj
      rw [List.getD_eq_default d 0 hj', List.getD_eq_default c 0 (hlen ▸ hj'),
        List.getD_eq_default _ 0 ((riskSet_length N d c).symm ▸ hj')]
      omega

/-- C6: for every risk-set table produced by the builder from valid input
(censoring codes in {0,1} and non-negative counts, each aligned with the
times), the risk sequence `r` is non-increasing and `r[i] >= d[i] + c[i]`
holds at every index. -/
theorem C6_risk_set_invariants (x : List ℚ) (censored : Option (List ℤ))
    (counts : Option (List ℤ))
    (hcens : ∀ cs ∈ censored, cs.length = x.length ∧ ∀ z ∈ cs, z = 0 ∨ z = 1)
    (hcnt : ∀ cnt ∈ counts, cnt.length = x.length ∧ ∀ k ∈ cnt, 0 ≤ k) :
    (get_r_c_d x censored counts).r.Chain' (fun a b => b ≤ a) ∧
    ∀ j, (get_r_c_d x censored counts).d.getD j 0 + (get_r_c_d x censored counts).c.getD j 0 ≤
      (get_r_c_d x censored counts).r.getD j 0 := by
  rcases censored with _ | cens <;> rcases counts with _ | cnt
  · -- no censoring, no counts
    simp only [get_r_c_d]
    apply rcd_invariants_core
    · simp [buckets_length]
    · apply buckets_nonneg
      intro q hq
      rcases List.mem_map.1 hq with ⟨a, _, rfl⟩
      norm_num
    · intro a ha
      rcases List.mem_map.1 ha with ⟨v, _, rfl⟩
      exact le_refl 0
    · have hcov : ∀ q ∈ x.map (fun a => (a, (1 : ℤ))), q.1 ∈ uniqueSorted x := by
        intro q hq
        rcases List.mem_map.1 hq with ⟨a, ha, rfl⟩
        exact mem_uniqueSorted.2 ha
      rw [buckets_sum (uniqueSorted_nodup x) hcov, List.map_map]
      have h1 : (x.map (Prod.snd ∘ fun a => (a, (1 : ℤ)))).sum = x.length :=
        listSum_map_one x
      have h2 : ((uniqueSorted x).map (fun _ => (0 : ℤ))).sum = 0 := by
        apply List.sum_eq_zero
        intro y hy
        rcases List.mem_map.1 hy with ⟨v, _, rfl⟩
        rfl
      rw [h1, h2]
      omega
  · -- counts without censoring
    obtain ⟨hlen, hk⟩ := hcnt cnt rfl
    simp only [get_r_c_d]
    apply rcd_invariants_core
    · simp
    · intro a ha
      rcases List.mem_map.1 ha with ⟨q, hq, rfl⟩
      obtain ⟨q1, q2⟩ := q
      have hq' : (q1, q2) ∈ x.zip cnt := ((sortPairs_perm _).mem_iff).1 hq
      exact hk q2 (List.of_mem_zip hq').2
    · intro a ha
      rcases List.mem_map.1 ha with ⟨q, _, rfl⟩
      exact le_refl 0
    · have h1 : ((sortPairs (x.zip cnt)).map Prod.snd).sum =
          ((x.zip cnt).map Prod.snd).sum :=
        ((sortPairs_perm (x.zip cnt)).map Prod.snd).sum_eq
      have h2 : (x.zip cnt).map Prod.snd = cnt :=
        List.map_snd_zip x cnt (le_of_eq hlen)
      have h3 : ((sortPairs (x.zip cnt)).map (fun _ => (0 : ℤ))).sum = 0 := by
        apply List.sum_eq_zero
        intro y hy
        rcases List.mem_map.1 hy with ⟨q, _, rfl⟩
        rfl
      rw [h1, h2, h3]
      omega
  · -- censoring without counts
    obtain ⟨hlen, hz⟩ := hcens cens rfl
    simp only [get_r_c_d]
    apply rcd_invariants_core
    · simp [buckets_length]
    · apply buckets_nonneg
      intro q hq
      obtain ⟨q1, q2⟩ := q
      have h2 := (List.of_mem_zip hq).2
      rcases List.mem_map.1 h2 with ⟨z, hzc, rfl⟩
      rcases hz z hzc with h | h <;> omega
    · apply buckets_nonneg
      intro q hq
      obtain ⟨q1, q2⟩ := q
      have h2 := (List.of_mem_zip hq).2
      rcases hz q2 h2 with h | h <;> omega
    · have hcov1 : ∀ q ∈ x.zip (cens.map (fun z => 1 - z)), q.1 ∈ uniqueSorted x := by
        intro q hq
        obtain ⟨q1, q2⟩ := q
        exact mem_uniqueSorted.2 (List.of_mem_zip hq).1
      have hcov2 : ∀ q ∈ x.zip cens, q.1 ∈ uniqueSorted x := by
        intro q hq
        obtain ⟨q1, q2⟩ := q
        exact mem_uniqueSorted.2 (List.of_mem_zip hq).1
      rw [buckets_sum (uniqueSorted_nodup x) hcov1, buckets_sum (uniqueSorted_nodup x) hcov2]
      have hlen1 : (cens.map (fun z => 1 - z)).length ≤ x.length := by simp [hlen]
      rw [List.map_snd_zip x _ hlen1, List.map_snd_zip x cens (le_of_eq hlen)]
      have hsum : (cens.map (fun z => 1 - z)).sum + cens.sum = cens.length := by
        have ha : (cens.map (fun z => (1 - z) + z)).sum =
            (cens.map (fun z => 1 - z)).sum + (cens.map (fun z => z)).sum :=
          listSum_map_add cens (fun z => 1 - z) (fun z => z)
        have hb : cens.map (fun z => (1 - z) + z) = cens.map (fun _ => 1) := by
          apply List.map_congr_left
          intro z _
          ring
        have hc : cens.map (fun z => z) = cens := List.map_id cens
        rw [hb, listSum_map_one] at ha
        rw [hc] at ha
        omega
      rw [hlen] at hsum
      omega
  · -- censoring and counts
    obtain ⟨hclen, hz⟩ := hcens cens rfl
    obtain ⟨hklen, hk⟩ := hcnt cnt rfl
    simp only [get_r_c_d]
    apply rcd_invariants_core
    · simp [buckets_length]
    · apply buckets_nonneg
      intro q hq
      obtain ⟨q1, q2⟩ := q
      have h2 := (List.of_mem_zip hq).2
      rcases List.mem_map.1 h2 with ⟨⟨z, k⟩, hzk, rfl⟩
      have hz' := hz z (List.of_mem_zip hzk).1
      have hk' := hk k (List.of_mem_zip hzk).2
      rcases hz' with h | h <;> subst h <;> simpa using hk'
    · apply buckets_nonneg
      intro q hq
      obtain ⟨q1, q2⟩ := q
      have h2 := (List.of_mem_zip hq).2
      rcases List.mem_map.1 h2 with ⟨⟨z, k⟩, hzk, rfl⟩
      have hz' := hz z (List.of_mem_zip hzk).1
      have hk' := hk k (List.of_mem_zip hzk).2
      rcases hz' with h | h <;> subst h <;> simpa using hk'
    · have hcov1 : ∀ q ∈ x.zip ((cens.zip cnt).map (fun q => (1 - q.1) * q.2)),
          q.1 ∈ uniqueSorted x := by
        intro q hq
        obtain ⟨q1, q2⟩ := q
        exact mem_uniqueSorted.2 (List.of_mem_zip hq).1
      have hcov2 : ∀ q ∈ x.zip ((cens.zip cnt).map (fun q => q.1 * q.2)),
          q.1 ∈ uniqueSorted x := by
        intro q hq
        obtain ⟨q1, q2⟩ := q
        exact mem_uniqueSorted.2 (List.of_mem_zip hq).1
      rw [buckets_sum (uniqueSorted_nodup x) hcov1, buckets_sum (uniqueSorted_nodup x) hcov2]
      have hziplen : (cens.zip cnt).length = x.length := by
        rw [List.length_zip, hclen, hklen]
        exact min_self _
      have hl1 : ((cens.zip cnt).map (fun q => (1 - q.1) * q.2)).length ≤ x.length := by
        simp [hziplen]
      have hl2 : ((cens.zip cnt).map (fun q => q.1 * q.2)).length ≤ x.length := by
        simp [hziplen]
      rw [List.map_snd_zip x _ hl1, List.map_snd_zip x _ hl2]
      have ha : ((cens.zip cnt).map (fun q => (1 - q.1) * q.2 + q.1 * q.2)).sum =
          ((cens.zip cnt).map (fun q => (1 - q.1) * q.2)).sum +
            ((cens.zip cnt).map (fun q => q.1 * q.2)).sum :=
        listSum_map_add (cens.zip cnt) _ _
      have hb : (cens.zip cnt).map (fun q => (1 - q.1) * q.2 + q.1 * q.2) =
          (cens.zip cnt).map Prod.snd := by
        apply List.map_congr_left
        intro q _
        ring
      have hc : (cens.zip cnt).map Prod.snd = cnt :=
        List.map_snd_zip cens cnt (le_of_eq (hklen.trans hclen.symm))
      rw [hb, hc] at ha
      omega

lemma listRangeMapSum (n : ℕ) (f : ℕ → ℚ) :
    ((List.range n).map f).sum = ∑ k ∈ Finset.range n, f k := by
  induction n with
  | zero => simp
  | succ n ih =>
    rw [List.range_succ, List.map_append, List.sum_append, Finset.sum_range_succ, ih]
    simp

lemma zip_getD_mem (l1 l2 : List ℚ) (i : ℕ) (h1 : i < l1.length) (h2 : i < l2.length) :
    (l1.getD i 0, l2.getD i 0) ∈ l1.zip l2 := by
  induction l1 generalizing l2 i with
  | nil => simp at h1
  | cons a l1 ih =>
    cases l2 with
    | nil => simp at h2
    | cons b l2 =>
      cases i with
      | zero => simp
      | succ i =>
        simp only [List.getD_cons_succ, List.zip_cons_cons, List.mem_cons]
        right
        exact ih l2 i (by simpa using h1) (by simpa using h2)

lemma tb_denom_pos (lower upper : List ℚ) (hlen : lower.length = upper.length)
    (hle : ∀ p ∈ lower.zip upper, p.1 ≤ p.2) (i : ℕ) (hi : i < lower.length) :
    0 < tb_denom lower upper i := by
  have hmem : lower.getD i 0 ∈ tb_xs lower upper := by
    rw [tb_xs, mem_uniqueSorted]
    apply List.mem_append_left
    rw [List.getD_eq_get _ 0 hi]
    exact List.get_mem lower i hi
  have hmpos : 0 < ((tb_xs lower upper).length : ℚ) := by
    have h := List.length_pos.2 (List.ne_nil_of_mem hmem)
    exact_mod_cast h
  obtain ⟨⟨k0, hk0⟩, hk0e⟩ := List.mem_iff_get.1 hmem
  rw [tb_denom, listRangeMapSum]
  apply Finset.sum_pos'
  · intro k _
    apply mul_nonneg
    · rw [tb_alpha]
      split <;> norm_num
    · rw [tb_p]
      positivity
  · refine ⟨k0, Finset.mem_range.2 hk0, ?_⟩
    have hgk : (tb_xs lower upper).getD k0 0 = lower.getD i 0 := by
      rw [List.getD_eq_get _ 0 hk0]
      exact hk0e
    have halpha : tb_alpha lower upper i k0 = 1 := by
      rw [tb_alpha, if_pos]
      refine ⟨le_of_eq hgk.symm, ?_⟩
      rw [hgk]
      exact hle _ (zip_getD_mem lower upper i hi (hlen ▸ hi))
    rw [halpha, one_mul, tb_p]
    positivity

/-- C2 (counterexample): for the valid non-degenerate interval-censored sample
`lower = [0,1]`, `upper = [1,2]`, the mass vector returned by `turnbull` sums
to 2, not to 1: the source performs a single un-normalized accumulation pass,
so the claim that the mass sums to 1 within tolerance is false. -/
theorem C2_counterexample : (turnbull_d [0, 1] [1, 2]).sum = 2 ∧ (2 : ℚ) ≠ 1 := by
  constructor
  · norm_num [turnbull_d, tb_d, tb_denom, tb_alpha, tb_p, tb_xs, uniqueSorted, insOne,
      List.range_succ]
  · norm_num

/-- C2 (amended): for every valid non-degenerate interval-censored sample
(`lower[i] <= upper[i]` for all `i`, aligned lengths), the mass vector `d`
returned by the Turnbull routine sums exactly to `n`, the number of units —
the code runs one self-consistent accumulation pass with uniform initial
mass and returns it without normalizing or iterating. -/
theorem C2_turnbull_mass_sums_to_n (lower upper : List ℚ)
    (hlen : lower.length = upper.length)
    (hle : ∀ p ∈ lower.zip upper, p.1 ≤ p.2) :
    (turnbull_d lower upper).sum = (lower.length : ℚ) := by
  rw [turnbull_d, listRangeMapSum]
  have hstep : ∀ j ∈ Finset.range (tb_xs lower upper).length,
      tb_d lower upper j = ∑ i ∈ Finset.range lower.length,
        tb_alpha lower upper i j * tb_p lower upper / tb_denom lower upper i := by
    intro j _
    rw [tb_d, listRangeMapSum]
  rw [Finset.sum_congr rfl hstep, Finset.sum_comm]
  have hterm : ∀ i ∈ Finset.range lower.length,
      (∑ j ∈ Finset.range (tb_xs lower upper).length,
        tb_alpha lower upper i j * tb_p lower upper / tb_denom lower upper i) = 1 := by
    intro i hi
    rw [← Finset.sum_div]
    have hD : tb_denom lower upper i =
        ∑ j ∈ Finset.range (tb_xs lower upper).length,
          tb_alpha lower upper i j * tb_p lower upper := by
      rw [tb_denom, listRangeMapSum]
    rw [← hD, div_self (ne_of_gt (tb_denom_pos lower upper hlen hle i (Finset.mem_range.1 hi)))]
  rw [Finset.sum_congr rfl hterm]
  simp

/-- C2 (witness): the amended statement at the concrete sample
`lower = [0,1,4]`, `upper = [1,2,6]`, whose mass vector sums to 3. -/
theorem C2_witness :
    (([(0 : ℚ), 1, 4] : List ℚ).length = ([(1 : ℚ), 2, 6] : List ℚ).length ∧
      ∀ p ∈ (([(0 : ℚ), 1, 4] : List ℚ).zip [(1 : ℚ), 2, 6]), p.1 ≤ p.2) ∧
    (turnbull_d [0, 1, 4] [1, 2, 6]).sum = ((([(0 : ℚ), 1, 4] : List ℚ).length : ℚ)) :=
  ⟨⟨by decide, by decide⟩, C2_turnbull_mass_sums_to_n [0, 1, 4] [1, 2, 6] (by decide) (by decide)⟩

/-- C5: over every risk-set table (positive risk counts, failure counts
between 0 and 1), the Fleming-Harrington hazard sequence equals the
Nelson-Aalen hazard sequence `d[i]/r[i]` at every index: `d[i] = 0` terms
give hazard 0 and `d[i] = 1` terms give `1/r[i]`. -/
theorem C5_fh_reduces_to_na (r d : List ℤ)
    (h : ∀ p ∈ r.zip d, 0 < p.1 ∧ 0 ≤ p.2 ∧ p.2 ≤ 1) :
    fleming_harrington_h r d = nelson_aalen_h r d := by
  rw [fleming_harrington_h, nelson_aalen_h]
  apply List.map_congr_left
  intro p hp
  obtain ⟨hr, hd0, hd1⟩ := h p hp
  rcases (by omega : p.2 = 0 ∨ p.2 = 1) with h2 | h2 <;> rw [h2]
  · simp
  · norm_num [List.range_succ]

/-- C5 (witness): the reduction at the concrete table `r = [4,3,2,1]`,
`d = [1,0,1,1]`. -/
theorem C5_witness :
    (∀ p ∈ (([(4 : ℤ), 3, 2, 1] : List ℤ).zip [(1 : ℤ), 0, 1, 1]), 0 < p.1 ∧ 0 ≤ p.2 ∧ p.2 ≤ 1) ∧
    fleming_harrington_h [4, 3, 2, 1] [1, 0, 1, 1] = nelson_aalen_h [4, 3, 2, 1] [1, 0, 1, 1] :=
  ⟨by decide, C5_fh_reduces_to_na [4, 3, 2, 1] [1, 0, 1, 1] (by decide)⟩

/-- C1 (counterexample): for times `[2,3,5,8,10]` with censoring codes
`[0,1,0,0,1]` and no counts, the risk-set builder's time axis is not the
claimed `[2,5,8,10]`: the censored-only time 3 is kept as its own row. -/
theorem C1_counterexample :
    (get_r_c_d [2, 3, 5, 8, 10] (some [0, 1, 0, 0, 1]) none).x ≠ ([2, 5, 8, 10] : List ℚ) := by
  decide

/-- C1 (amended): for times `[2,3,5,8,10]` with censoring codes `[0,1,0,0,1]`
and no counts, the builder returns one row per unique observed time,
censored-only times included: `x = [2,3,5,8,10]`, `r = [5,4,3,2,1]`,
`c = [0,1,0,0,1]`, `d = [1,0,1,1,0]`; time 3 appears as a separate row with
`d = 0`, and the risk decrement passes through it. -/
theorem C1_risk_table_keeps_censored_only_times :
    get_r_c_d [2, 3, 5, 8, 10] (some [0, 1, 0, 0, 1]) none =
      ⟨[2, 3, 5, 8, 10], [5, 4, 3, 2, 1], [0, 1, 0, 0, 1], [1, 0, 1, 1, 0]⟩ := by
  decide

/-- C3: for the fully uncensored times `[5,6,7,9]` with no counts (`N = 4`),
the Kaplan-Meier estimator returns the reliability sequence
`R = [0.75, 0.5, 0.25, 0.0]`. -/
theorem C3_kaplan_meier_example :
    kaplan_meier_R [5, 6, 7, 9] none none = [0.75, 0.5, 0.25, 0] := by
  norm_num [kaplan_meier_R, get_r_c_d, uniqueSorted, insOne, buckets, riskSet, cumprod,
    List.range_succ]

/-- C4: evaluation of `rank_adjust` on the fully uncensored input
`t = [1,2]`, `censored = [0,0]` (`n = 2`): the code returns the adjusted
ranks `[3/4, 3/2]`, not the plain ranks `[1, 2]` — the loop index is 0-based
while the mean-order-number denominator `n - i + 2` in the code's own
comment is derived for a 1-based index, so every rank is scaled by
`(n+1)/(n+2)`. -/
theorem C4_rank_adjust_uncensored_eval :
    rank_adjust [1, 2] (some [0, 0]) = .ok [some (3 / 4), some (3 / 2)] ∧ (3 / 4 : ℚ) ≠ 1 := by
  constructor
  · norm_num [rank_adjust, rank_adjust_ranks, ranksAux, sortPairs, insPair]
  · norm_num

/-- C7 (counterexample): with the negative count `-1`, the risk-set builder
does not fail: it returns an ordinary table — whose risk sequence `[2,3]` is
even increasing — instead of reporting invalid input. -/
theorem C7_counterexample :
    get_r_c_d [1, 2] none (some [-1, 3]) = ⟨[1, 2], [2, 3], [0, 0], [-1, 3]⟩ ∧
      ¬ ([(2 : ℤ), 3] : List ℤ).Chain' (fun a b => b ≤ a) := by
  constructor
  · decide
  · intro h
    rw [List.chain'_cons] at h
    exact absurd h.1 (by norm_num)

/-- C7 (amended): the builder performs no input validation; with a
zero-size population (`N = 0`, empty input) it returns the empty table
rather than failing. -/
theorem C7_no_validation_empty_input :
    get_r_c_d [] none none = ⟨[], [], [], []⟩ := by
  decide

/-- C8: `plotting_positions` fails (via the unassigned-constants error) for
every formula name outside the documented table, and for every listed name
it uses exactly the table's `(A, B)` constants in
`p[i] = (rank[i] - A) / (n + B)`; the thirteen documented names (with
`Mean`/`Weibull` sharing constants) map to exactly the documented pairs. -/
theorem C8_plotting_positions_table :
    (∀ formula, formulaAB formula = none →
      ∀ (t : List ℚ) (censored : Option (List ℤ)),
        plotting_positions t censored formula = .error .unboundLocalError) ∧
    (∀ (t : List ℚ) (formula : String) (A B : ℚ), formulaAB formula = some (A, B) →
      plotting_positions t none formula =
        .ok ((List.range t.length).map
          (fun (i : ℕ) => some (((i : ℚ) + 1 - A) / ((t.length : ℚ) + B))))) ∧
    formulaAB "Blom" = some (0.375, 0.25) ∧
    formulaAB "Median" = some (0.3, 0.4) ∧
    formulaAB "Modal" = some (1.0, -1.0) ∧
    formulaAB "Midpoint" = some (0.5, 0.0) ∧
    formulaAB "Mean" = some (0.0, 1.0) ∧
    formulaAB "Weibull" = some (0.0, 1.0) ∧
    formulaAB "Benard" = some (0.3, 0.2) ∧
    formulaAB "Beard" = some (0.31, 0.38) ∧
    formulaAB "Hazen" = some (0.5, 0.0) ∧
    formulaAB "Filiben" = some (0.3175, 1.635) ∧
    formulaAB "Gringorten" = some (0.44, 0.12) ∧
    formulaAB "None" = some (0.0, 0.0) ∧
    formulaAB "Tukey" = some (1 / 3, 1 / 3) ∧
    formulaAB "DPW" = some (1.0, 0.0) := by
  refine ⟨?_, ?_, by simp [formulaAB], by simp [formulaAB], by simp [formulaAB],
    by simp [formulaAB], by simp [formulaAB], by simp [formulaAB], by simp [formulaAB],
    by simp [formulaAB], by simp [formulaAB], by simp [formulaAB], by simp [formulaAB],
    by simp [formulaAB], by simp [formulaAB], by simp [formulaAB]⟩
  · intro formula hnone t censored
    simp only [plotting_positions, hnone]
  · intro t formula A B hAB
    have hlen : ((List.range t.length).map (fun (i : ℕ) => some ((i : ℚ) + 1))).length = t.length := by
      rw [List.length_map, List.length_range]
    simp only [plotting_positions, hAB, hlen, List.map_map]
    congr 1

/-- C8 (witness): the unknown name `"Bogus"` fails, and `"Blom"` produces the
positions `(rank - 0.375) / (n + 0.25)` on the sample `[1, 2]`. -/
theorem C8_witness :
    (formulaAB "Bogus" = none ∧
      plotting_positions [1, 2] none "Bogus" = .error .unboundLocalError) ∧
    (formulaAB "Blom" = some (0.375, 0.25) ∧
      plotting_positions [1, 2] none "Blom" =
        .ok ((List.range ([(1 : ℚ), 2] : List ℚ).length).map
          (fun (i : ℕ) => some (((i : ℚ) + 1 - 0.375) / ((([(1 : ℚ), 2] : List ℚ).length : ℚ) + 0.25))))) :=
  ⟨⟨by simp [formulaAB], C8_plotting_positions_table.1 "Bogus" (by simp [formulaAB]) [1, 2] none⟩,
   ⟨by simp [formulaAB],
    C8_plotting_positions_table.2.1 [1, 2] "Blom" 0.375 0.25 (by simp [formulaAB])⟩⟩

/-- C9 (counterexample): for the invalid regression direction `"z"`, the
Weibull rank-regression fitter does not fail: it returns plain `None`
(src line 437), so the claim that each fitter fails with an
invalid-direction error is false. -/
theorem C9_counterexample :
    weibull_lsq [1, 2] none "Blom" false "z" = .retNone ∧
      LsqOutcome.retNone ≠ LsqOutcome.raisedException := by
  constructor
  · simp [weibull_lsq, formulaAB]
  · decide

/-- C9 (amended): in the non-LFP path with a known plotting formula, a
direction code other than `'x'`/`'y'` makes `gumbel_lsq` and `normal_lsq`
raise an exception but makes `weibull_lsq` return `None` without error; when
zero uncensored observations remain after filtering, all three fitters reach
the line-fit step and die on numpy's `TypeError` for empty vectors (not a
designed empty-sample error); and an empty sample returns `None` from all
three without any error. -/
theorem C9_direction_and_empty_sample (t : List ℚ) (censored : Option (List ℤ))
    (plotting rr : String) (AB : ℚ × ℚ)
    (ht : t ≠ []) (hf : formulaAB plotting = some AB)
    (hrx : rr ≠ "x") (hry : rr ≠ "y") :
    (weibull_lsq t censored plotting false rr = .retNone ∧
     gumbel_lsq t censored plotting false rr = .raisedException ∧
     normal_lsq t censored plotting false rr = .raisedException) ∧
    (∀ cs, censored = some cs → cs.countP (fun z => decide (z = 0)) = 0 →
      weibull_lsq t censored plotting false "y" = .err .typeError ∧
      gumbel_lsq t censored plotting false "y" = .err .typeError ∧
      normal_lsq t censored plotting false "y" = .err .typeError) ∧
    (weibull_lsq [] censored plotting false rr = .retNone ∧
     gumbel_lsq [] censored plotting false rr = .retNone ∧
     normal_lsq [] censored plotting false rr = .retNone) := by
  have hlen : ¬ (t.length = 0) := by
    simpa [List.length_eq_zero] using ht
  refine ⟨⟨?_, ?_, ?_⟩, ?_, ?_, ?_, ?_⟩
  · simp [weibull_lsq, hlen, hf, hrx, hry]
  · simp [gumbel_lsq, hlen, hf, hrx, hry]
  · simp [normal_lsq, hlen, hf, hrx, hry]
  · intro cs hcs hcount
    subst hcs
    refine ⟨?_, ?_, ?_⟩
    · simp [weibull_lsq, hlen, hf, hcount]
    · simp [gumbel_lsq, hlen, hf, hcount]
    · simp [normal_lsq, hlen, hf, hcount]
  · simp [weibull_lsq]
  · simp [gumbel_lsq]
  · simp [normal_lsq]

/-- C9 (witness): the amended behavior at the concrete sample `[1, 2]` with
both entries censored, the `"Blom"` formula, and the bad direction `"z"`. -/
theorem C9_witness :
    (([(1 : ℚ), 2] : List ℚ) ≠ [] ∧ formulaAB "Blom" = some (0.375, 0.25) ∧
      ("z" : String) ≠ "x" ∧ ("z" : String) ≠ "y") ∧
    weibull_lsq [1, 2] (some [1, 1]) "Blom" false "z" = .retNone ∧
    gumbel_lsq [1, 2] (some [1, 1]) "Blom" false "z" = .raisedException ∧
    normal_lsq [1, 2] (some [1, 1]) "Blom" false "z" = .raisedException ∧
    weibull_lsq [1, 2] (some [1, 1]) "Blom" false "y" = .err .typeError :=
  ⟨⟨by decide, by simp [formulaAB], by decide, by decide⟩,
   (C9_direction_and_empty_sample [1, 2] (some [1, 1]) "Blom" "z" (0.375, 0.25)
      (by decide) (by simp [formulaAB]) (by decide) (by decide)).1.1,
   (C9_direction_and_empty_sample [1, 2] (some [1, 1]) "Blom" "z" (0.375, 0.25)
      (by decide) (by simp [formulaAB]) (by decide) (by decide)).1.2.1,
   (C9_direction_and_empty_sample [1, 2] (some [1, 1]) "Blom" "z" (0.375, 0.25)
      (by decide) (by simp [formulaAB]) (by decide) (by decide)).1.2.2,
   ((C9_direction_and_empty_sample [1, 2] (some [1, 1]) "Blom" "z" (0.375, 0.25)
      (by decide) (by simp [formulaAB]) (by decide) (by decide)).2.1 [1, 1] rfl (by decide)).1⟩

/-- C10: calling `rank_adjust` with the censoring argument omitted
(`censored = None`) always raises `TypeError`: the reindexing
`censored = censored[idx]` (src line 380) subscripts `None` before the
`if censored is None` check (src line 387) can run, for every input `t`. -/
theorem C10_rank_adjust_none_raises (t : List ℚ) :
    rank_adjust t none = .error .typeError := rfl

/-- C6 (witness): the risk-set invariants at the concrete censored sample
`x = [2,3,5,8,10]`, `censored = [0,1,0,0,1]`, no counts. -/
theorem C6_witness :
    ((∀ cs ∈ (some [0, 1, 0, 0, 1] : Option (List ℤ)),
        cs.length = ([2, 3, 5, 8, 10] : List ℚ).length ∧ ∀ z ∈ cs, z = 0 ∨ z = 1) ∧
      (∀ cnt ∈ (none : Option (List ℤ)),
        cnt.length = ([2, 3, 5, 8, 10] : List ℚ).length ∧ ∀ k ∈ cnt, 0 ≤ k)) ∧
    ((get_r_c_d [2, 3, 5, 8, 10] (some [0, 1, 0, 0, 1]) none).r.Chain' (fun a b => b ≤ a) ∧
      ∀ j, (get_r_c_d [2, 3, 5, 8, 10] (some [0, 1, 0, 0, 1]) none).d.getD j 0 +
          (get_r_c_d [2, 3, 5, 8, 10] (some [0, 1, 0, 0, 1]) none).c.getD j 0 ≤
        (get_r_c_d [2, 3, 5, 8, 10] (some [0, 1, 0, 0, 1]) none).r.getD j 0) := by
  have hcens : ∀ cs ∈ (some [0, 1, 0, 0, 1] : Option (List ℤ)),
      cs.length = ([2, 3, 5, 8, 10] : List ℚ).length ∧ ∀ z ∈ cs, z = 0 ∨ z = 1 := by
    intro cs hcs
    rw [Option.mem_def] at hcs
    injection hcs with h
    subst h
    exact ⟨by decide, by decide⟩
  have hcnt : ∀ cnt ∈ (none : Option (List ℤ)),
      cnt.length = ([2, 3, 5, 8, 10] : List ℚ).length ∧ ∀ k ∈ cnt, 0 ≤ k := by
    intro cnt hcnt
    rw [Option.mem_def] at hcnt
    exact absurd hcnt (by simp)
  exact ⟨⟨hcens, hcnt⟩,
    C6_risk_set_invariants [2, 3, 5, 8, 10] (some [0, 1, 0, 0, 1]) none hcens hcnt⟩

/-- C10 (witness): the `TypeError` at the concrete input `t = [1, 2]`. -/
theorem C10_witness : rank_adjust [1, 2] none = .error .typeError :=
  C10_rank_adjust_none_raises [1, 2]
